import Mathlib

/-!
# IceSSL OpenSSL connection: claim flag, handshake sentinel, phase and registry

A shallow embedding of `src/cpp/src/IceSSL/SslConnectionOpenSSL.h`.

* `SafeFlag` and `HandshakeSentinel` are defined inline in the header and are
  embedded from their bodies.  Every `SafeFlag` member function takes the
  internal mutex for its whole body, so each call is one atomic transition of
  the flag; a member function is a Lean function from the flag before the call
  to the returned value and the flag after the call.
* `ConnectPhase` and `SslConnectionMap` are the header's typedefs.
* The member functions of `Connection` are only declared in the header.  Their
  behaviour is modelled from the specification; each such definition says so.
* Concurrent callers of `handshake()` are modelled as a race: the scheduler
  picks a caller, which makes its next atomic step on the shared connection.
-/

namespace IceSSL.OpenSSL

/-! ## SafeFlag -/

/-- The class `SafeFlag`: the private member `_flag` (the mutex carries no data). -/
structure SafeFlag where
  _flag : Bool
deriving DecidableEq, Repr

/-- The constructor `SafeFlag(bool flagVal)`: `_flag = flagVal`. -/
def SafeFlag.construct (flagVal : Bool) : SafeFlag :=
  { _flag := flagVal }

/-- The constructor with its default argument, `SafeFlag()`: `flagVal = false`. -/
def SafeFlag.constructDefault : SafeFlag :=
  SafeFlag.construct false

/-- The member `checkAndSet()`: returns `false` when `_flag` is set, otherwise
sets `_flag` and returns `true`. -/
def SafeFlag.checkAndSet (f : SafeFlag) : Bool × SafeFlag :=
  if f._flag then
    (false, f)
  else
    (true, { f with _flag := true })

/-- The member `check()`: returns `_flag`. -/
def SafeFlag.check (f : SafeFlag) : Bool × SafeFlag :=
  (f._flag, f)

/-- The member `set()`: `_flag = true`. -/
def SafeFlag.set (f : SafeFlag) : SafeFlag :=
  { f with _flag := true }

/-- The member `unset()`: `_flag = false`. -/
def SafeFlag.unset (f : SafeFlag) : SafeFlag :=
  { f with _flag := false }

/-- The four member functions of `SafeFlag`, as the name of a call. -/
inductive FlagCall where
  | checkAndSet
  | check
  | set
  | unset
deriving DecidableEq, Repr

/-- One call of a member function: the value it returns (`none` for the two
`void` members) and the flag after it. -/
def SafeFlag.call (f : SafeFlag) : FlagCall → Option Bool × SafeFlag
  | .checkAndSet => (some f.checkAndSet.1, f.checkAndSet.2)
  | .check => (some f.check.1, f.check.2)
  | .set => (none, f.set)
  | .unset => (none, f.unset)

/-- The flag after a sequence of calls, made one after the other. -/
def SafeFlag.runCalls (f : SafeFlag) : List FlagCall → SafeFlag
  | [] => f
  | c :: cs => (f.call c).2.runCalls cs

/-- The values returned by the `checkAndSet()` calls of a sequence of calls, in
call order. -/
def SafeFlag.checkAndSetResults (f : SafeFlag) : List FlagCall → List Bool
  | [] => []
  | .checkAndSet :: cs => f.checkAndSet.1 :: f.checkAndSet.2.checkAndSetResults cs
  | c :: cs => (f.call c).2.checkAndSetResults cs

/-! ## A flag with its call history -/

/-- A `SafeFlag` object together with the history of the member-function calls
made on it (oldest first).  The history is what "calls `unset()` once" is
stated about; it does not influence any call. -/
structure TracedFlag where
  obj : SafeFlag
  history : List FlagCall
deriving DecidableEq, Repr

/-- A call of `checkAndSet()` on the object, recorded in the history. -/
def TracedFlag.checkAndSet (t : TracedFlag) : Bool × TracedFlag :=
  (t.obj.checkAndSet.1, { obj := t.obj.checkAndSet.2, history := t.history ++ [.checkAndSet] })

/-- A call of `unset()` on the object, recorded in the history. -/
def TracedFlag.unset (t : TracedFlag) : TracedFlag :=
  { obj := t.obj.unset, history := t.history ++ [.unset] }

/-- Any call on the object, recorded in the history. -/
def TracedFlag.call (t : TracedFlag) (c : FlagCall) : Option Bool × TracedFlag :=
  ((t.obj.call c).1, { obj := (t.obj.call c).2, history := t.history ++ [c] })

/-- The object after a sequence of calls, each recorded. -/
def TracedFlag.runCalls (t : TracedFlag) : List FlagCall → TracedFlag
  | [] => t
  | c :: cs => (t.call c).2.runCalls cs

/-- How many times `unset()` has been called on the object. -/
def TracedFlag.unsetCount (t : TracedFlag) : Nat :=
  t.history.count FlagCall.unset

/-! ## HandshakeSentinel -/

/-- The class `HandshakeSentinel`: the member `_ownHandshake`.  The reference
member `_flag` is the flag object the functions below are given. -/
structure HandshakeSentinel where
  _ownHandshake : Bool
deriving DecidableEq, Repr

/-- The constructor `HandshakeSentinel(SafeFlag&)`:
`_ownHandshake = _flag.checkAndSet()`. -/
def HandshakeSentinel.construct (handshakeFlag : TracedFlag) : HandshakeSentinel × TracedFlag :=
  ({ _ownHandshake := handshakeFlag.checkAndSet.1 }, handshakeFlag.checkAndSet.2)

/-- The destructor `~HandshakeSentinel()`: `if(_ownHandshake) _flag.unset()`. -/
def HandshakeSentinel.destroy (s : HandshakeSentinel) (flag : TracedFlag) : TracedFlag :=
  if s._ownHandshake then flag.unset else flag

/-- The member `ownHandshake()`: returns `_ownHandshake`. -/
def HandshakeSentinel.ownHandshake (s : HandshakeSentinel) : Bool :=
  s._ownHandshake

/-! ## Sentinels sharing one flag -/

/-- One claim flag and the sentinels on it that have been constructed and not
yet destroyed. -/
structure FlagScope where
  flag : TracedFlag
  live : List HandshakeSentinel
deriving DecidableEq, Repr

/-- What a thread does to the flag through a sentinel: enter a scope
(construct a sentinel) or leave one (destroy the live sentinel at a position). -/
inductive SentinelEvent where
  | enter
  | leave (i : Nat)
deriving DecidableEq, Repr

/-- The scope that starts from a flag on which no sentinel is live. -/
def FlagScope.start (f : SafeFlag) : FlagScope :=
  { flag := { obj := f, history := [] }, live := [] }

/-- One event.  Constructors and destructors reach the flag only through
`checkAndSet()` and `unset()`, which hold the mutex, so an event is atomic.  A
sentinel leaves the live list when it is destroyed, so it is destroyed at most
once and only after its construction; `leave` of a position that holds no live
sentinel is no event at all. -/
def FlagScope.step (w : FlagScope) : SentinelEvent → FlagScope
  | .enter =>
      { flag := (HandshakeSentinel.construct w.flag).2,
        live := w.live ++ [(HandshakeSentinel.construct w.flag).1] }
  | .leave i =>
      match w.live[i]? with
      | none => w
      | some s => { flag := s.destroy w.flag, live := w.live.eraseIdx i }

/-- The scope after a sequence of events, in the order they take effect. -/
def FlagScope.run (w : FlagScope) : List SentinelEvent → FlagScope
  | [] => w
  | e :: es => (w.step e).run es

/-- The number of live sentinels whose `ownHandshake()` is true. -/
def FlagScope.owners (w : FlagScope) : Nat :=
  w.live.countP HandshakeSentinel.ownHandshake

/-! ## Connection phase -/

/-- The enum `ConnectPhase`. -/
inductive ConnectPhase where
  | Handshake
  | Shutdown
  | Connected
deriving DecidableEq, Repr

/-- Modelled from the spec: the result of one attempt of the cryptographic
engine, as classified by the engine loop (section 3, "Handshake attempt
outcome"); the engine itself is an external library.  `failed` carries the
native error code. -/
inductive AttemptOutcome where
  | completed
  | needsMoreRead
  | needsMoreWrite
  | timedOut
  | failed (nativeCode : Int)
deriving DecidableEq, Repr

/-- Modelled from the spec: what an engine operation reports to its caller
(section 7); the values of the `int` results are not in the header. -/
inductive EngineResult where
  | success
  | timeout
  | handshakeTimeout
  | handshakeFailure (nativeCode : Int)
  | shutdownFailure (nativeCode : Int)
  | ioError (nativeCode : Int)
  | statePrecondition
deriving DecidableEq, Repr

/-- The members of `Connection` the phase claims are about: `_phase` and
`_lastError`. -/
structure Connection where
  _phase : ConnectPhase
  _lastError : Int
deriving DecidableEq, Repr

/-- Modelled from the spec: the constructor of `Connection`, whose body is not
in the header; the initial state is `Handshake` (section 4.2). -/
def Connection.construct : Connection :=
  { _phase := ConnectPhase.Handshake, _lastError := 0 }

/-- The inline member `setLastError(int)`: `_lastError = errorCode`. -/
def Connection.setLastError (c : Connection) (errorCode : Int) : Connection :=
  { c with _lastError := errorCode }

/-- Modelled from the spec: the control loop of `handshake(timeout)`, whose
body is not in the header (section 4.2, step 2).  While the phase is
`Handshake` the engine's step is invoked; `engine` lists the outcomes of the
successive attempts that fit in the caller's timeout budget, so an exhausted
list is the budget running out.  Success sets the phase `Connected`; on
needs-more-read / needs-more-write the loop goes round again; timed-out and
fatal leave the phase `Handshake`. -/
def Connection.handshakeLoop (c : Connection) : List AttemptOutcome → EngineResult × Connection
  | [] =>
      match c._phase with
      | .Handshake => (EngineResult.handshakeTimeout, c)
      | _ => (EngineResult.success, c)
  | o :: rest =>
      match c._phase with
      | .Handshake =>
          match o with
          | .completed => (EngineResult.success, { c with _phase := ConnectPhase.Connected })
          | .needsMoreRead => c.handshakeLoop rest
          | .needsMoreWrite => c.handshakeLoop rest
          | .timedOut => (EngineResult.handshakeTimeout, c)
          | .failed code => (EngineResult.handshakeFailure code, c.setLastError code)
      | _ => (EngineResult.success, c)

/-- Modelled from the spec: `handshake(timeout)`, pure virtual in the header
(section 4.2).  One caller at a time is modelled, so the scoped claim of step 1
is always obtained and is released on return; what remains is the loop. -/
def Connection.handshake (c : Connection) (engine : List AttemptOutcome) :
    EngineResult × Connection :=
  c.handshakeLoop engine

/-- Modelled from the spec: the close-notification exchange of
`shutdown(timeout)` (section 4.2): the same retry loop as the handshake, bounded
by the timeout; it reports how the exchange ended and records a native error. -/
def Connection.closeNotify (c : Connection) : List AttemptOutcome → EngineResult × Connection
  | [] => (EngineResult.timeout, c)
  | .completed :: _ => (EngineResult.success, c)
  | .needsMoreRead :: rest => c.closeNotify rest
  | .needsMoreWrite :: rest => c.closeNotify rest
  | .timedOut :: _ => (EngineResult.timeout, c)
  | .failed code :: _ => (EngineResult.shutdownFailure code, c.setLastError code)

/-- Modelled from the spec: `shutdown(timeout)`, whose body is not in the
header (section 4.2).  In phase `Handshake` it goes straight to `Shutdown`; in
phase `Connected` it runs the close-notification exchange and sets `Shutdown`
whatever the exchange gave; a further call observes `Shutdown` (section 8). -/
def Connection.shutdown (c : Connection) (engine : List AttemptOutcome) :
    EngineResult × Connection :=
  match c._phase with
  | .Handshake => (EngineResult.success, { c with _phase := ConnectPhase.Shutdown })
  | .Connected =>
      ((c.closeNotify engine).1, { (c.closeNotify engine).2 with _phase := ConnectPhase.Shutdown })
  | .Shutdown => (EngineResult.success, c)

/-- Modelled from the spec: the record transfer shared by `read` and `write`
(section 4.2): retried on needs-more-read / needs-more-write, failing with the
native code on a fatal result; it does not touch the phase. -/
def Connection.transfer (c : Connection) : List AttemptOutcome → EngineResult × Connection
  | [] => (EngineResult.timeout, c)
  | .completed :: _ => (EngineResult.success, c)
  | .needsMoreRead :: rest => c.transfer rest
  | .needsMoreWrite :: rest => c.transfer rest
  | .timedOut :: _ => (EngineResult.timeout, c)
  | .failed code :: _ => (EngineResult.ioError code, c.setLastError code)

/-- Modelled from the spec: `read(buffer, timeout)`, whose body is not in the
header (section 4.2): valid in phase `Connected` and, to drain on close, in
phase `Shutdown`; in phase `Handshake` it fails at once (section 8). -/
def Connection.read (c : Connection) (engine : List AttemptOutcome) : EngineResult × Connection :=
  match c._phase with
  | .Handshake => (EngineResult.statePrecondition, c)
  | _ => c.transfer engine

/-- Modelled from the spec: `write(buffer, timeout)`, pure virtual in the
header (section 4.2): valid only in phase `Connected`. -/
def Connection.write (c : Connection) (engine : List AttemptOutcome) : EngineResult × Connection :=
  match c._phase with
  | .Connected => c.transfer engine
  | _ => (EngineResult.statePrecondition, c)

/-- Modelled from the spec: `renegotiate()`, whose body is not in the header
(section 4.2): from phase `Connected` the phase is forced back to `Handshake`
and the handshake loop is entered.  The spec describes renegotiation from
`Connected` only; in the other phases nothing is done here. -/
def Connection.renegotiate (c : Connection) (engine : List AttemptOutcome) :
    EngineResult × Connection :=
  match c._phase with
  | .Connected => Connection.handshakeLoop { c with _phase := ConnectPhase.Handshake } engine
  | _ => (EngineResult.statePrecondition, c)

/-- An engine operation of the public contract, with the outcomes the engine
gives during it. -/
inductive EngineOp where
  | handshake (engine : List AttemptOutcome)
  | shutdown (engine : List AttemptOutcome)
  | read (engine : List AttemptOutcome)
  | write (engine : List AttemptOutcome)
  | renegotiate (engine : List AttemptOutcome)
deriving DecidableEq, Repr

/-- Whether the operation is `renegotiate`. -/
def EngineOp.isRenegotiate : EngineOp → Bool
  | .renegotiate _ => true
  | _ => false

/-- The connection after one operation. -/
def Connection.apply (c : Connection) : EngineOp → Connection
  | .handshake e => (c.handshake e).2
  | .shutdown e => (c.shutdown e).2
  | .read e => (c.read e).2
  | .write e => (c.write e).2
  | .renegotiate e => (c.renegotiate e).2

/-- The phases a connection goes through over a sequence of operations: the
phase before the first one, then the phase after each. -/
def Connection.phaseTrace (c : Connection) : List EngineOp → List ConnectPhase
  | [] => [c._phase]
  | op :: ops => c._phase :: (c.apply op).phaseTrace ops

/-- The moves of the phase invariant: a phase may stay, and may move
`Handshake → Connected`, `Handshake → Shutdown` or `Connected → Shutdown`. -/
def ConnectPhase.advancesTo : ConnectPhase → ConnectPhase → Bool
  | .Handshake, _ => true
  | .Connected, .Connected => true
  | .Connected, .Shutdown => true
  | .Shutdown, .Shutdown => true
  | _, _ => false

/-- The connection after a sequence of operations, one after the other. -/
def Connection.run (c : Connection) : List EngineOp → Connection
  | [] => c
  | op :: ops => (c.apply op).run ops

/-- The moves a connection makes over a sequence of operations: for each
operation the phase before it, the operation, and the phase after it. -/
def Connection.moves (c : Connection) : List EngineOp → List (ConnectPhase × EngineOp × ConnectPhase)
  | [] => []
  | op :: ops => (c._phase, op, (c.apply op)._phase) :: (c.apply op).moves ops

/-- The moves an operation may make: the moves of the phase invariant, and for
`renegotiate` also `Connected → Handshake`. -/
def EngineOp.permits (op : EngineOp) (p q : ConnectPhase) : Bool :=
  p.advancesTo q ||
    (op.isRenegotiate && (p == ConnectPhase.Connected) && (q == ConnectPhase.Handshake))

/-! ## Concurrent callers of handshake -/

/-- Modelled from the spec: one round of the control loop of
`handshake(timeout)` (section 4.2, step 2), for a connection in phase
`Handshake`: the engine's step is invoked and its outcome classified.  The
result is `none` when the loop goes round again. -/
def Connection.handshakeAttempt (c : Connection) :
    AttemptOutcome → Option EngineResult × Connection
  | .completed => (some EngineResult.success, { c with _phase := ConnectPhase.Connected })
  | .needsMoreRead => (none, c)
  | .needsMoreWrite => (none, c)
  | .timedOut => (some EngineResult.handshakeTimeout, c)
  | .failed code => (some (EngineResult.handshakeFailure code), c.setLastError code)

/-- What the threads calling `handshake()` share: the members `_phase` and
`_lastError`, the member `_handshakeFlag`, and the engine behind the native
handle, as the outcomes its next attempts will give. -/
structure SharedConnection where
  conn : Connection
  _handshakeFlag : TracedFlag
  engine : List AttemptOutcome
deriving DecidableEq, Repr

/-- Modelled from the spec: where a thread is in its call of
`handshake(timeout)` (section 4.2).  `idle`: about to take the scoped claim.
`waiting`: the claim was held; blocked on the condition, `signalled` once a
release has signalled it.  `running`: in the loop of step 2.  `returning`:
leaving the scope with a result, the sentinel still live.  `done`: returned,
with the result and the phase seen on return. -/
inductive CallerPc where
  | idle
  | waiting (s : HandshakeSentinel) (signalled : Bool)
  | running (s : HandshakeSentinel)
  | returning (s : HandshakeSentinel) (r : EngineResult)
  | done (r : EngineResult) (seen : ConnectPhase)
deriving DecidableEq, Repr

/-- A calling thread: where it is, how many times it has itself invoked the
engine's handshake step, and whether it ever found the claim held. -/
structure Caller where
  pc : CallerPc
  invoked : Nat
  waited : Bool
deriving DecidableEq, Repr

/-- The release of the claim signals the condition: every waiting caller
becomes signalled. -/
def Caller.wake (c : Caller) : Caller :=
  match c.pc with
  | .waiting s _ => { c with pc := CallerPc.waiting s true }
  | _ => c

/-- Modelled from the spec: the next atomic step of one caller of
`handshake(timeout)`, whose body is not in the header (section 4.2, steps 1 to
3).  It gives the shared state and the caller after the step, and whether the
step released the claim (and so signals the waiters).

* `idle`: the sentinel is constructed on `_handshakeFlag`; the caller runs the
  loop when it owns the claim and waits otherwise.
* `waiting`: blocked until signalled; then the phase is re-checked: when it is
  `Connected` the caller returns success, otherwise it gives up its sentinel
  and takes the claim anew.
* `running`: while the phase is `Handshake` one round of the loop is made
  (an engine with no outcome left is the time budget running out); in another
  phase the loop is over and the caller returns success.
* `returning`: the sentinel is destroyed, which releases a claim it owns. -/
def Caller.advance (sh : SharedConnection) (c : Caller) : SharedConnection × Caller × Bool :=
  match c.pc with
  | .idle =>
      if (HandshakeSentinel.construct sh._handshakeFlag).1.ownHandshake then
        ({ sh with _handshakeFlag := (HandshakeSentinel.construct sh._handshakeFlag).2 },
          { c with pc := CallerPc.running (HandshakeSentinel.construct sh._handshakeFlag).1 },
          false)
      else
        ({ sh with _handshakeFlag := (HandshakeSentinel.construct sh._handshakeFlag).2 },
          { c with
            pc := CallerPc.waiting (HandshakeSentinel.construct sh._handshakeFlag).1 false,
            waited := true },
          false)
  | .waiting _ false => (sh, c, false)
  | .waiting s true =>
      match sh.conn._phase with
      | .Connected => (sh, { c with pc := CallerPc.returning s EngineResult.success }, false)
      | _ =>
          ({ sh with _handshakeFlag := s.destroy sh._handshakeFlag },
            { c with pc := CallerPc.idle }, false)
  | .running s =>
      match sh.conn._phase with
      | .Handshake =>
          match sh.engine with
          | [] => (sh, { c with pc := CallerPc.returning s EngineResult.handshakeTimeout }, false)
          | o :: rest =>
              ({ sh with conn := (sh.conn.handshakeAttempt o).2, engine := rest },
                { c with
                  pc := match (sh.conn.handshakeAttempt o).1 with
                    | none => CallerPc.running s
                    | some r => CallerPc.returning s r,
                  invoked := c.invoked + 1 },
                false)
      | _ => (sh, { c with pc := CallerPc.returning s EngineResult.success }, false)
  | .returning s r =>
      ({ sh with _handshakeFlag := s.destroy sh._handshakeFlag },
        { c with pc := CallerPc.done r sh.conn._phase }, s.ownHandshake)
  | .done _ _ => (sh, c, false)

/-- A connection with the threads that call `handshake()` on it. -/
structure HandshakeRace where
  shared : SharedConnection
  callers : List Caller
deriving DecidableEq, Repr

/-- A fresh connection (phase `Handshake`, claim flag default-constructed) on
which `n` threads are about to call `handshake()`. -/
def HandshakeRace.fresh (n : Nat) (engine : List AttemptOutcome) : HandshakeRace :=
  { shared :=
      { conn := Connection.construct,
        _handshakeFlag := { obj := SafeFlag.constructDefault, history := [] },
        engine := engine },
    callers := List.replicate n { pc := CallerPc.idle, invoked := 0, waited := false } }

/-- The scheduler lets caller `i` make its next atomic step; a release signals
all waiting callers.  An index that names no caller is no step. -/
def HandshakeRace.step (w : HandshakeRace) (i : Nat) : HandshakeRace :=
  match w.callers[i]? with
  | none => w
  | some c =>
      { shared := (c.advance w.shared).1,
        callers :=
          (w.callers.map (if (c.advance w.shared).2.2 then Caller.wake else id)).set i
            (c.advance w.shared).2.1 }

/-- The race after a schedule: the callers that step, in order. -/
def HandshakeRace.run (w : HandshakeRace) : List Nat → HandshakeRace
  | [] => w
  | i :: schedule => (w.step i).run schedule

/-- The engine completes the handshake: its attempts report needs-more-read or
needs-more-write until one reports completion. -/
def completes : List AttemptOutcome → Bool
  | [] => false
  | .completed :: _ => true
  | .needsMoreRead :: rest => completes rest
  | .needsMoreWrite :: rest => completes rest
  | _ :: _ => false

/-- Whether the caller has returned from `handshake()`. -/
def Caller.isDone (c : Caller) : Bool :=
  match c.pc with
  | .done _ _ => true
  | _ => false

/-- Whether the caller's live sentinel owns the claim. -/
def Caller.holdsClaim (c : Caller) : Bool :=
  match c.pc with
  | .waiting s _ => s.ownHandshake
  | .running s => s.ownHandshake
  | .returning s _ => s.ownHandshake
  | _ => false

/-- How far a caller is from having returned. -/
def Caller.rank (c : Caller) : Nat :=
  match c.pc with
  | .idle => 5
  | .waiting _ false => 4
  | .waiting _ true => 3
  | .running _ => 2
  | .returning _ _ => 1
  | .done _ _ => 0

/-- A bound on the steps that are left: the outcomes the engine has yet to give
and the distance of every caller from its return. -/
def HandshakeRace.remaining (w : HandshakeRace) : Nat :=
  w.shared.engine.length + (w.callers.map Caller.rank).sum

/-- What holds of each caller while the engine completes the handshake. -/
def Caller.ok (sh : SharedConnection) (c : Caller) : Prop :=
  match c.pc with
  | .idle => c.invoked = 0 ∧ c.waited = false
  | .waiting s signalled =>
      s.ownHandshake = false ∧ c.invoked = 0 ∧
        (signalled = true → sh.conn._phase = ConnectPhase.Connected) ∧
        (signalled = false → sh._handshakeFlag.obj._flag = true)
  | .running s => s.ownHandshake = true ∧ c.waited = false
  | .returning _ r =>
      r = EngineResult.success ∧ sh.conn._phase = ConnectPhase.Connected ∧
        (c.waited = true → c.invoked = 0)
  | .done r seen =>
      r = EngineResult.success ∧ seen = ConnectPhase.Connected ∧
        sh.conn._phase = ConnectPhase.Connected ∧ (c.waited = true → c.invoked = 0)

/-- The invariant of a race whose engine completes the handshake. -/
structure RaceInv (w : HandshakeRace) : Prop where
  ok : ∀ (j : Nat) (d : Caller), w.callers[j]? = some d → d.ok w.shared
  holder_unique : ∀ (j k : Nat) (dj dk : Caller), w.callers[j]? = some dj → w.callers[k]? = some dk →
    dj.holdsClaim = true → dk.holdsClaim = true → j = k
  flag_iff : w.shared._handshakeFlag.obj._flag = true ↔
    ∃ (j : Nat) (d : Caller), w.callers[j]? = some d ∧ d.holdsClaim = true
  engine_completes : w.shared.conn._phase = ConnectPhase.Handshake →
    completes w.shared.engine = true
  invoked_exists : w.shared.conn._phase = ConnectPhase.Connected →
    ∃ (j : Nat) (d : Caller), w.callers[j]? = some d ∧ 0 < d.invoked
  invoked_unique : ∀ (j k : Nat) (dj dk : Caller), w.callers[j]? = some dj → w.callers[k]? = some dk →
    0 < dj.invoked → 0 < dk.invoked → j = k
  not_shutdown : w.shared.conn._phase ≠ ConnectPhase.Shutdown

/-! ## Session registry -/

/-- A native session handle, `SSL*`: an address. -/
abbrev SslHandle := Nat

/-- A back-reference to a connection, `Connection*`: an address. -/
abbrev ConnectionRef := Nat

/-- The typedef `SslConnectionMap`, `std::map<SSL*, Connection*>`: the entries
of the map. -/
abbrev SslConnectionMap := List (SslHandle × ConnectionRef)

/-- Modelled from the spec: `getConnection(SSL*)`, whose body is not in the
header (section 4.3, `lookup`): the back-reference registered for the handle,
if there is one. -/
def getConnection (m : SslConnectionMap) (handle : SslHandle) : Option ConnectionRef :=
  (m.find? (fun e => e.1 == handle)).map Prod.snd

/-- Modelled from the spec: `addConnection(SSL*, Connection*)`, whose body is not
in the header (section 4.3, `register`): inserts the entry, and fails, as a
violation of the contract, when the handle is already present. -/
def addConnection (m : SslConnectionMap) (handle : SslHandle) (connection : ConnectionRef) :
    Option SslConnectionMap :=
  match getConnection m handle with
  | some _ => none
  | none => some ((handle, connection) :: m)

/-- Modelled from the spec: `removeConnection(SSL*)`, whose body is not in the
header (section 4.3, `unregister`): removes the entry of the handle; nothing
happens when there is none. -/
def removeConnection (m : SslConnectionMap) (handle : SslHandle) : SslConnectionMap :=
  m.filter (fun e => e.1 != handle)

/-! ## Theorems: SafeFlag -/

theorem SafeFlag.call_flag_of_ne_unset (f : SafeFlag) (c : FlagCall) (hf : f._flag = true)
    (hc : c ≠ FlagCall.unset) : (f.call c).2._flag = true := by
  cases c <;> simp_all [SafeFlag.call, SafeFlag.checkAndSet, SafeFlag.check, SafeFlag.set]

theorem SafeFlag.checkAndSetResults_of_set (cs : List FlagCall) :
    ∀ f : SafeFlag, f._flag = true → FlagCall.unset ∉ cs →
      f.checkAndSetResults cs = List.replicate (cs.count FlagCall.checkAndSet) false := by
  induction cs with
  | nil => intro f _ _; rfl
  | cons c cs ih =>
    intro f hf hcs
    have hc : c ≠ FlagCall.unset := fun h => hcs (h ▸ List.mem_cons_self _ _)
    have hrest : FlagCall.unset ∉ cs := fun h => hcs (List.mem_cons_of_mem _ h)
    have hnext := ih (f.call c).2 (SafeFlag.call_flag_of_ne_unset f c hf hc) hrest
    cases c with
    | checkAndSet =>
      simp only [SafeFlag.call] at hnext
      simp [SafeFlag.checkAndSetResults, hnext, List.replicate_succ]
      simp [SafeFlag.checkAndSet, hf]
    | check => simpa [SafeFlag.checkAndSetResults] using hnext
    | set => simpa [SafeFlag.checkAndSetResults] using hnext
    | unset => exact absurd rfl hc

theorem SafeFlag.checkAndSet_flag (f : SafeFlag) : f.checkAndSet.2._flag = true := by
  obtain ⟨b⟩ := f
  cases b <;> simp [SafeFlag.checkAndSet]

/-- C1: for every flag state, `checkAndSet()` returns true exactly when the
flag was false before the call, and the flag is true after the call: a false
flag becomes true and reports true, a true flag stays true and reports false. -/
theorem checkAndSet_returns_whether_it_claimed (f : SafeFlag) :
    (f.checkAndSet.1 = true ↔ f._flag = false) ∧
    f.checkAndSet.2._flag = true ∧
    f.checkAndSet = (!f._flag, SafeFlag.construct true) ∧
    (SafeFlag.construct false).checkAndSet = (true, SafeFlag.construct true) ∧
    (SafeFlag.construct true).checkAndSet = (false, SafeFlag.construct true) := by
  obtain ⟨b⟩ := f
  cases b <;> simp [SafeFlag.checkAndSet, SafeFlag.construct]

/-- C2: on a default-constructed flag, in any sequence of calls that starts
with `checkAndSet()` and goes on with `checkAndSet()`, `check()` and `set()`
calls in any order (no `unset()`), the first `checkAndSet()` returns true and
every later one returns false, however many there are. -/
theorem first_checkAndSet_claims_alone (rest : List FlagCall)
    (hrest : FlagCall.unset ∉ rest) :
    SafeFlag.constructDefault.checkAndSetResults (FlagCall.checkAndSet :: rest) =
      true :: List.replicate (rest.count FlagCall.checkAndSet) false := by
  have h := SafeFlag.checkAndSetResults_of_set rest
    SafeFlag.constructDefault.checkAndSet.2 (by decide) hrest
  simp only [SafeFlag.checkAndSetResults, h]
  rfl

theorem first_checkAndSet_claims_alone_witness :
    FlagCall.unset ∉ [FlagCall.check, FlagCall.checkAndSet, FlagCall.set, FlagCall.checkAndSet] ∧
    SafeFlag.constructDefault.checkAndSetResults
      [FlagCall.checkAndSet, FlagCall.check, FlagCall.checkAndSet, FlagCall.set,
        FlagCall.checkAndSet] = [true, false, false] :=
  ⟨by decide,
    first_checkAndSet_claims_alone
      [FlagCall.check, FlagCall.checkAndSet, FlagCall.set, FlagCall.checkAndSet] (by decide)⟩

/-- C5: `unset()` resets the flag to false from every state; after it `check()`
returns false and the next `checkAndSet()` returns true, also when a `check()`
comes in between. -/
theorem unset_releases_the_flag (f : SafeFlag) :
    f.unset._flag = false ∧
    f.unset.check.1 = false ∧
    f.unset.checkAndSet.1 = true ∧
    f.unset.check.2.checkAndSet.1 = true := by
  simp [SafeFlag.unset, SafeFlag.check, SafeFlag.checkAndSet]

/-- C10: for every flag state, `check()` returns the flag and leaves it as it
was, `set()` leaves the flag true, and a `checkAndSet()` made directly after
`set()` returns false and leaves the flag true. -/
theorem check_reads_and_set_claims_for_nobody (f : SafeFlag) :
    f.check.1 = f._flag ∧
    f.check.2 = f ∧
    f.set._flag = true ∧
    f.set.checkAndSet.1 = false ∧
    f.set.checkAndSet.2._flag = true := by
  simp [SafeFlag.set, SafeFlag.check, SafeFlag.checkAndSet]

/-! ## Theorems: HandshakeSentinel -/

theorem TracedFlag.runCalls_obj (cs : List FlagCall) :
    ∀ t : TracedFlag, (t.runCalls cs).obj = t.obj.runCalls cs := by
  induction cs with
  | nil => intro t; rfl
  | cons c cs ih => intro t; simp [TracedFlag.runCalls, SafeFlag.runCalls, ih, TracedFlag.call]

theorem TracedFlag.runCalls_history (cs : List FlagCall) :
    ∀ t : TracedFlag, (t.runCalls cs).history = t.history ++ cs := by
  induction cs with
  | nil => intro t; simp [TracedFlag.runCalls]
  | cons c cs ih => intro t; simp [TracedFlag.runCalls, ih, TracedFlag.call]

theorem SafeFlag.runCalls_flag_of_set (cs : List FlagCall) :
    ∀ f : SafeFlag, f._flag = true → FlagCall.unset ∉ cs → (f.runCalls cs)._flag = true := by
  induction cs with
  | nil => intro f hf _; exact hf
  | cons c cs ih =>
    intro f hf hcs
    have hc : c ≠ FlagCall.unset := fun h => hcs (h ▸ List.mem_cons_self _ _)
    have hrest : FlagCall.unset ∉ cs := fun h => hcs (List.mem_cons_of_mem _ h)
    exact ih (f.call c).2 (SafeFlag.call_flag_of_ne_unset f c hf hc) hrest

/-- C3: whatever the state of the flag a sentinel is built on, and whatever
calls other than `unset()` are made on the flag while the sentinel lives,
constructing and destroying the sentinel adds exactly one `unset()` call when
the construction claimed the flag and none when it did not; the flag is true
from the construction to the destruction and is afterwards what it was before
the construction, so a flag that was false is false again. -/
theorem sentinel_unsets_once_per_claim (t : TracedFlag) (during : List FlagCall)
    (hduring : FlagCall.unset ∉ during) :
    (HandshakeSentinel.construct t).1.ownHandshake = !t.obj._flag ∧
    ((HandshakeSentinel.construct t).1.destroy
        ((HandshakeSentinel.construct t).2.runCalls during)).unsetCount =
      t.unsetCount + (if (HandshakeSentinel.construct t).1.ownHandshake then 1 else 0) ∧
    (HandshakeSentinel.construct t).2.obj._flag = true ∧
    ((HandshakeSentinel.construct t).2.runCalls during).obj._flag = true ∧
    ((HandshakeSentinel.construct t).1.destroy
        ((HandshakeSentinel.construct t).2.runCalls during)).obj._flag = t.obj._flag := by
  have hborn : (HandshakeSentinel.construct t).2.obj._flag = true := by
    simp only [HandshakeSentinel.construct, TracedFlag.checkAndSet]
    exact SafeFlag.checkAndSet_flag t.obj
  have hlive : ((HandshakeSentinel.construct t).2.runCalls during).obj._flag = true := by
    rw [TracedFlag.runCalls_obj]
    exact SafeFlag.runCalls_flag_of_set during _ hborn hduring
  have hcount : List.count FlagCall.unset during = 0 := List.count_eq_zero.mpr hduring
  obtain ⟨⟨b⟩, hist⟩ := t
  refine ⟨?_, ?_, hborn, hlive, ?_⟩
  · cases b <;> simp [HandshakeSentinel.construct, HandshakeSentinel.ownHandshake,
      TracedFlag.checkAndSet, SafeFlag.checkAndSet]
  · cases b <;>
      simp [HandshakeSentinel.construct, HandshakeSentinel.ownHandshake, HandshakeSentinel.destroy,
        TracedFlag.checkAndSet, SafeFlag.checkAndSet, TracedFlag.unsetCount, TracedFlag.unset,
        TracedFlag.runCalls_history, hcount]
  · cases b
    · simp [HandshakeSentinel.construct, HandshakeSentinel.destroy, TracedFlag.checkAndSet,
        SafeFlag.checkAndSet, TracedFlag.unset, SafeFlag.unset]
    · simpa [HandshakeSentinel.construct, HandshakeSentinel.destroy, TracedFlag.checkAndSet,
        SafeFlag.checkAndSet] using hlive

theorem sentinel_unsets_once_per_claim_witness :
    FlagCall.unset ∉ [FlagCall.check, FlagCall.checkAndSet] ∧
    (HandshakeSentinel.construct ⟨SafeFlag.construct false, []⟩).1.ownHandshake = true ∧
    ((HandshakeSentinel.construct ⟨SafeFlag.construct false, []⟩).1.destroy
        ((HandshakeSentinel.construct ⟨SafeFlag.construct false, []⟩).2.runCalls
          [FlagCall.check, FlagCall.checkAndSet])).unsetCount = 1 ∧
    ((HandshakeSentinel.construct ⟨SafeFlag.construct false, []⟩).1.destroy
        ((HandshakeSentinel.construct ⟨SafeFlag.construct false, []⟩).2.runCalls
          [FlagCall.check, FlagCall.checkAndSet])).obj._flag = false :=
  have h := sentinel_unsets_once_per_claim ⟨SafeFlag.construct false, []⟩
    [FlagCall.check, FlagCall.checkAndSet] (by decide)
  ⟨by decide, h.1, h.2.1, h.2.2.2.2⟩

/-- C9: a sentinel constructed on a flag that is already true has
`ownHandshake()` false, leaves the flag true after its construction and after
its destruction, and calls `unset()` at neither point. -/
theorem losing_sentinel_leaves_the_claim (t : TracedFlag) (hheld : t.obj._flag = true) :
    (HandshakeSentinel.construct t).1.ownHandshake = false ∧
    (HandshakeSentinel.construct t).2.obj._flag = true ∧
    ((HandshakeSentinel.construct t).1.destroy (HandshakeSentinel.construct t).2).obj._flag
      = true ∧
    (HandshakeSentinel.construct t).2.obj = t.obj ∧
    ((HandshakeSentinel.construct t).1.destroy (HandshakeSentinel.construct t).2).unsetCount
      = t.unsetCount := by
  simp [HandshakeSentinel.construct, HandshakeSentinel.ownHandshake, HandshakeSentinel.destroy,
    TracedFlag.checkAndSet, SafeFlag.checkAndSet, TracedFlag.unsetCount, hheld]

theorem losing_sentinel_leaves_the_claim_witness :
    (SafeFlag.construct true)._flag = true ∧
    (HandshakeSentinel.construct ⟨SafeFlag.construct true, [FlagCall.set]⟩).1.ownHandshake
      = false ∧
    ((HandshakeSentinel.construct ⟨SafeFlag.construct true, [FlagCall.set]⟩).1.destroy
      (HandshakeSentinel.construct ⟨SafeFlag.construct true, [FlagCall.set]⟩).2).obj._flag
      = true :=
  have h := losing_sentinel_leaves_the_claim ⟨SafeFlag.construct true, [FlagCall.set]⟩ rfl
  ⟨rfl, h.1, h.2.2.1⟩

/-! ## Theorems: mutual exclusion through the flag -/

theorem countP_eraseIdx_add (p : HandshakeSentinel → Bool) (l : List HandshakeSentinel) :
    ∀ (i : Nat) (s : HandshakeSentinel), l[i]? = some s →
      (l.eraseIdx i).countP p + (if p s then 1 else 0) = l.countP p := by
  induction l with
  | nil => intro i s h; simp at h
  | cons a l ih =>
    intro i s h
    cases i with
    | zero =>
      simp at h
      subst h
      simp [List.countP_cons]
    | succ i =>
      simp at h
      have := ih i s h
      simp only [List.eraseIdx_cons_succ, List.countP_cons]
      omega

theorem FlagScope.step_leave_none (w : FlagScope) (i : Nat) (h : w.live[i]? = none) :
    w.step (SentinelEvent.leave i) = w := by
  simp [FlagScope.step, h]

theorem FlagScope.step_leave_some (w : FlagScope) (i : Nat) (s : HandshakeSentinel)
    (h : w.live[i]? = some s) :
    w.step (SentinelEvent.leave i) = { flag := s.destroy w.flag, live := w.live.eraseIdx i } := by
  simp [FlagScope.step, h]

/-- The invariant of a scope: there are as many owning sentinels as the flag
says, one when it is true and none when it is false. -/
theorem FlagScope.step_owners (w : FlagScope) (e : SentinelEvent)
    (h : w.owners = if w.flag.obj._flag then 1 else 0) :
    (w.step e).owners = if (w.step e).flag.obj._flag then 1 else 0 := by
  cases e with
  | enter =>
    obtain ⟨⟨⟨b⟩, hist⟩, live⟩ := w
    cases b <;>
      simp_all [FlagScope.step, FlagScope.owners, HandshakeSentinel.construct,
        TracedFlag.checkAndSet, SafeFlag.checkAndSet, HandshakeSentinel.ownHandshake,
        List.countP_cons]
  | leave i =>
    match hget : w.live[i]? with
    | none => rw [FlagScope.step_leave_none w i hget]; exact h
    | some s =>
      rw [FlagScope.step_leave_some w i s hget]
      have hc := countP_eraseIdx_add HandshakeSentinel.ownHandshake w.live i s hget
      obtain ⟨⟨⟨b⟩, hist⟩, live⟩ := w
      simp only [FlagScope.owners] at h hc ⊢
      obtain ⟨own⟩ := s
      cases own
      · simp [HandshakeSentinel.destroy, HandshakeSentinel.ownHandshake] at hc ⊢
        rw [hc]; exact h
      · have hflag : (HandshakeSentinel.destroy { _ownHandshake := true }
            { obj := { _flag := b }, history := hist }).obj._flag = false := rfl
        have hown : HandshakeSentinel.ownHandshake { _ownHandshake := true } = true := rfl
        simp only [hflag, hown, Bool.false_eq_true, if_true, if_false] at h hc ⊢
        cases b
        · simp only [Bool.false_eq_true, if_false] at h
          omega
        · simp only [if_true] at h
          omega

theorem FlagScope.run_owners (es : List SentinelEvent) :
    ∀ w : FlagScope, (w.owners = if w.flag.obj._flag then 1 else 0) →
      (w.run es).owners = if (w.run es).flag.obj._flag then 1 else 0 := by
  induction es with
  | nil => intro w h; exact h
  | cons e es ih => intro w h; exact ih (w.step e) (FlagScope.step_owners w e h)

/-- C4: starting from a flag that is false with no sentinel on it, after every
interleaving of sentinel constructions and destructions on that flag at most
one live sentinel has `ownHandshake()` true, and the flag is true exactly when
such a sentinel exists. -/
theorem at_most_one_sentinel_owns (events : List SentinelEvent) :
    ((FlagScope.start (SafeFlag.construct false)).run events).owners ≤ 1 ∧
    (((FlagScope.start (SafeFlag.construct false)).run events).flag.obj._flag = true ↔
      ∃ s ∈ ((FlagScope.start (SafeFlag.construct false)).run events).live,
        s.ownHandshake = true) := by
  have h := FlagScope.run_owners events (FlagScope.start (SafeFlag.construct false)) (by decide)
  generalize (FlagScope.start (SafeFlag.construct false)).run events = w at h
  simp only [FlagScope.owners] at h ⊢
  constructor
  · rw [h]; split <;> omega
  · rw [← List.countP_pos_iff, h]
    cases w.flag.obj._flag <;> simp

/-! ## Theorems: connection phase -/

theorem ConnectPhase.advancesTo_refl (p : ConnectPhase) : p.advancesTo p = true := by
  cases p <;> rfl

theorem ConnectPhase.advancesTo_trans (p q r : ConnectPhase) (hpq : p.advancesTo q = true)
    (hqr : q.advancesTo r = true) : p.advancesTo r = true := by
  cases p <;> cases q <;> cases r <;> simp_all [ConnectPhase.advancesTo]

theorem Connection.handshakeLoop_phase (engine : List AttemptOutcome) :
    ∀ c : Connection, (c.handshakeLoop engine).2._phase = c._phase ∨
      (c._phase = ConnectPhase.Handshake ∧
        (c.handshakeLoop engine).2._phase = ConnectPhase.Connected) := by
  induction engine with
  | nil =>
    intro c
    obtain ⟨ph, err⟩ := c
    cases ph <;> simp [Connection.handshakeLoop]
  | cons o rest ih =>
    intro c
    have hrest := ih c
    obtain ⟨ph, err⟩ := c
    cases ph <;> cases o <;>
      simp_all [Connection.handshakeLoop, Connection.setLastError]

theorem Connection.closeNotify_phase (engine : List AttemptOutcome) :
    ∀ c : Connection, (c.closeNotify engine).2._phase = c._phase := by
  induction engine with
  | nil => intro c; rfl
  | cons o rest ih =>
    intro c
    cases o <;> simp [Connection.closeNotify, Connection.setLastError, ih]

theorem Connection.transfer_phase (engine : List AttemptOutcome) :
    ∀ c : Connection, (c.transfer engine).2._phase = c._phase := by
  induction engine with
  | nil => intro c; rfl
  | cons o rest ih =>
    intro c
    cases o <;> simp [Connection.transfer, Connection.setLastError, ih]

theorem Connection.apply_advances (c : Connection) (op : EngineOp)
    (hop : op.isRenegotiate = false) : c._phase.advancesTo (c.apply op)._phase = true := by
  cases op with
  | handshake e =>
    rcases Connection.handshakeLoop_phase e c with h | ⟨h1, h2⟩
    · simp only [Connection.apply, Connection.handshake, h]
      exact ConnectPhase.advancesTo_refl _
    · simp only [Connection.apply, Connection.handshake, h1, h2]
      rfl
  | shutdown e =>
    obtain ⟨ph, err⟩ := c
    cases ph <;> simp [Connection.apply, Connection.shutdown, ConnectPhase.advancesTo]
  | read e =>
    obtain ⟨ph, err⟩ := c
    cases ph <;>
      simp [Connection.apply, Connection.read, Connection.transfer_phase,
        ConnectPhase.advancesTo]
  | write e =>
    obtain ⟨ph, err⟩ := c
    cases ph <;>
      simp [Connection.apply, Connection.write, Connection.transfer_phase,
        ConnectPhase.advancesTo]
  | renegotiate e => simp [EngineOp.isRenegotiate] at hop

theorem Connection.phaseTrace_reachable (ops : List EngineOp) :
    ∀ c : Connection, (∀ op ∈ ops, op.isRenegotiate = false) →
      ∀ q ∈ c.phaseTrace ops, c._phase.advancesTo q = true := by
  induction ops with
  | nil =>
    intro c _ q hq
    simp only [Connection.phaseTrace, List.mem_singleton] at hq
    subst hq
    exact ConnectPhase.advancesTo_refl _
  | cons op ops ih =>
    intro c hops q hq
    simp only [Connection.phaseTrace, List.mem_cons] at hq
    rcases hq with hq | hq
    · subst hq
      exact ConnectPhase.advancesTo_refl _
    · exact ConnectPhase.advancesTo_trans _ _ _
        (Connection.apply_advances c op (hops op (List.mem_cons_self _ _)))
        (ih (c.apply op) (fun o ho => hops o (List.mem_cons_of_mem _ ho)) q hq)

theorem Connection.phaseTrace_pairwise (ops : List EngineOp) :
    ∀ c : Connection, (∀ op ∈ ops, op.isRenegotiate = false) →
      List.Pairwise (fun p q => p.advancesTo q = true) (c.phaseTrace ops) := by
  induction ops with
  | nil => intro c _; simp [Connection.phaseTrace]
  | cons op ops ih =>
    intro c hops
    have hrest : ∀ o ∈ ops, o.isRenegotiate = false := fun o ho => hops o (List.mem_cons_of_mem _ ho)
    simp only [Connection.phaseTrace, List.pairwise_cons]
    refine ⟨fun q hq => ?_, ih (c.apply op) hrest⟩
    exact ConnectPhase.advancesTo_trans _ _ _
      (Connection.apply_advances c op (hops op (List.mem_cons_self _ _)))
      (Connection.phaseTrace_reachable ops (c.apply op) hrest q hq)

theorem Connection.apply_permits (c : Connection) (op : EngineOp) :
    op.permits c._phase (c.apply op)._phase = true := by
  cases hop : op.isRenegotiate with
  | false => simp [EngineOp.permits, Connection.apply_advances c op hop]
  | true =>
    cases op with
    | renegotiate e =>
      obtain ⟨ph, err⟩ := c
      cases ph with
      | Connected =>
        rcases Connection.handshakeLoop_phase e ⟨ConnectPhase.Handshake, err⟩ with h | ⟨_, h⟩ <;>
          simp_all [EngineOp.permits, Connection.apply, Connection.renegotiate,
            EngineOp.isRenegotiate, ConnectPhase.advancesTo]
      | Handshake =>
        simp [EngineOp.permits, Connection.apply, Connection.renegotiate,
          ConnectPhase.advancesTo]
      | Shutdown =>
        simp [EngineOp.permits, Connection.apply, Connection.renegotiate,
          ConnectPhase.advancesTo]
    | handshake e => simp [EngineOp.isRenegotiate] at hop
    | shutdown e => simp [EngineOp.isRenegotiate] at hop
    | read e => simp [EngineOp.isRenegotiate] at hop
    | write e => simp [EngineOp.isRenegotiate] at hop

theorem Connection.moves_permitted (ops : List EngineOp) :
    ∀ c : Connection, ∀ m ∈ c.moves ops, m.2.1.permits m.1 m.2.2 = true := by
  induction ops with
  | nil => intro c m hm; simp [Connection.moves] at hm
  | cons op ops ih =>
    intro c m hm
    simp only [Connection.moves, List.mem_cons] at hm
    rcases hm with hm | hm
    · subst hm
      exact Connection.apply_permits c op
    · exact ih (c.apply op) m hm

theorem Connection.apply_of_shutdown (c : Connection) (op : EngineOp)
    (hc : c._phase = ConnectPhase.Shutdown) : (c.apply op)._phase = ConnectPhase.Shutdown := by
  obtain ⟨ph, err⟩ := c
  simp only at hc
  subst hc
  cases op <;>
    simp [Connection.apply, Connection.handshake, Connection.handshakeLoop_phase,
      Connection.shutdown, Connection.read, Connection.write, Connection.renegotiate,
      Connection.transfer_phase]
  rename_i e
  rcases Connection.handshakeLoop_phase e ⟨ConnectPhase.Shutdown, err⟩ with h | ⟨h, _⟩
  · exact h
  · cases h

theorem Connection.phaseTrace_of_shutdown (ops : List EngineOp) :
    ∀ c : Connection, c._phase = ConnectPhase.Shutdown →
      ∀ q ∈ c.phaseTrace ops, q = ConnectPhase.Shutdown := by
  induction ops with
  | nil =>
    intro c hc q hq
    simp only [Connection.phaseTrace, List.mem_singleton] at hq
    exact hq.trans hc
  | cons op ops ih =>
    intro c hc q hq
    simp only [Connection.phaseTrace, List.mem_cons] at hq
    rcases hq with hq | hq
    · exact hq.trans hc
    · exact ih (c.apply op) (Connection.apply_of_shutdown c op hc) q hq

theorem Connection.phaseTrace_shutdown_absorbs (ops : List EngineOp) :
    ∀ c : Connection,
      List.Pairwise (fun p q => p = ConnectPhase.Shutdown → q = ConnectPhase.Shutdown)
        (c.phaseTrace ops) := by
  induction ops with
  | nil => intro c; simp [Connection.phaseTrace]
  | cons op ops ih =>
    intro c
    simp only [Connection.phaseTrace, List.pairwise_cons]
    exact ⟨fun q hq hc =>
      Connection.phaseTrace_of_shutdown ops (c.apply op) (Connection.apply_of_shutdown c op hc) q hq,
      ih (c.apply op)⟩

/-- C6, as stated, fails on renegotiation: a connection that has completed its
handshake and then renegotiates with the engine reporting a fatal error goes
`Handshake`, `Connected`, `Handshake`, and the last move is none of the moves
of the invariant. -/
theorem renegotiate_takes_connected_back_to_handshake :
    Connection.construct.phaseTrace
        [EngineOp.handshake [AttemptOutcome.completed],
          EngineOp.renegotiate [AttemptOutcome.failed 1]] =
      [ConnectPhase.Handshake, ConnectPhase.Connected, ConnectPhase.Handshake] ∧
    ¬ List.Pairwise (fun p q => p.advancesTo q = true)
      (Connection.construct.phaseTrace
        [EngineOp.handshake [AttemptOutcome.completed],
          EngineOp.renegotiate [AttemptOutcome.failed 1]]) := by
  decide

/-- C6, amended: a connection starts in phase `Handshake`, and over every
sequence of engine operations (handshake, shutdown, read, write, renegotiate)
each operation either makes a move of the invariant (stay,
`Handshake → Connected`, `Handshake → Shutdown`, `Connected → Shutdown`) or is
a `renegotiate` taking `Connected` to `Handshake`; a renegotiation of a
`Connected` connection ends in `Handshake` or `Connected`; once `Shutdown` the
phase stays `Shutdown` under all five operations; and over any stretch of
operations without `renegotiate`, wherever it starts, each phase and every
later one are a move of the invariant, so `Connected` does not return to
`Handshake` there. -/
theorem phase_regresses_only_by_renegotiate (ops stretch : List EngineOp) :
    Connection.construct._phase = ConnectPhase.Handshake ∧
    (∀ m ∈ Connection.construct.moves ops, m.2.1.permits m.1 m.2.2 = true) ∧
    (∀ (lastError : Int) (engine : List AttemptOutcome),
      (Connection.renegotiate ⟨ConnectPhase.Connected, lastError⟩ engine).2._phase
          = ConnectPhase.Handshake ∨
      (Connection.renegotiate ⟨ConnectPhase.Connected, lastError⟩ engine).2._phase
          = ConnectPhase.Connected) ∧
    List.Pairwise (fun p q => p = ConnectPhase.Shutdown → q = ConnectPhase.Shutdown)
      (Connection.construct.phaseTrace ops) ∧
    ((∀ op ∈ stretch, op.isRenegotiate = false) →
      List.Pairwise (fun p q => p.advancesTo q = true)
        ((Connection.construct.run ops).phaseTrace stretch)) := by
  refine ⟨rfl, Connection.moves_permitted ops _, ?_,
    Connection.phaseTrace_shutdown_absorbs ops _,
    fun hstretch => Connection.phaseTrace_pairwise stretch _ hstretch⟩
  intro lastError engine
  rcases Connection.handshakeLoop_phase engine ⟨ConnectPhase.Handshake, lastError⟩ with h | ⟨_, h⟩
  · exact Or.inl h
  · exact Or.inr h

theorem phase_regresses_only_by_renegotiate_witness :
    (∀ op ∈ [EngineOp.handshake [AttemptOutcome.needsMoreRead, AttemptOutcome.completed],
        EngineOp.read [AttemptOutcome.completed], EngineOp.shutdown [AttemptOutcome.failed 5]],
      op.isRenegotiate = false) ∧
    Connection.construct.moves
        [EngineOp.handshake [AttemptOutcome.completed],
          EngineOp.renegotiate [AttemptOutcome.failed 1]] =
      [(ConnectPhase.Handshake, EngineOp.handshake [AttemptOutcome.completed],
          ConnectPhase.Connected),
        (ConnectPhase.Connected, EngineOp.renegotiate [AttemptOutcome.failed 1],
          ConnectPhase.Handshake)] ∧
    (∀ m ∈ Connection.construct.moves
        [EngineOp.handshake [AttemptOutcome.completed],
          EngineOp.renegotiate [AttemptOutcome.failed 1]], m.2.1.permits m.1 m.2.2 = true) ∧
    List.Pairwise (fun p q => p.advancesTo q = true)
      ((Connection.construct.run
          [EngineOp.handshake [AttemptOutcome.completed],
            EngineOp.renegotiate [AttemptOutcome.failed 1]]).phaseTrace
        [EngineOp.handshake [AttemptOutcome.needsMoreRead, AttemptOutcome.completed],
          EngineOp.read [AttemptOutcome.completed],
          EngineOp.shutdown [AttemptOutcome.failed 5]]) :=
  have hw := phase_regresses_only_by_renegotiate
    [EngineOp.handshake [AttemptOutcome.completed],
      EngineOp.renegotiate [AttemptOutcome.failed 1]]
    [EngineOp.handshake [AttemptOutcome.needsMoreRead, AttemptOutcome.completed],
      EngineOp.read [AttemptOutcome.completed], EngineOp.shutdown [AttemptOutcome.failed 5]]
  ⟨by decide, by decide, hw.2.1, hw.2.2.2.2 (by decide)⟩

/-! ## Theorems: session registry -/

theorem getConnection_cons (e : SslHandle × ConnectionRef) (m : SslConnectionMap)
    (h : SslHandle) :
    getConnection (e :: m) h = if e.1 = h then some e.2 else getConnection m h := by
  by_cases he : e.1 = h <;> simp [getConnection, List.find?_cons, he]

theorem removeConnection_cons (e : SslHandle × ConnectionRef) (m : SslConnectionMap)
    (h : SslHandle) :
    removeConnection (e :: m) h =
      if e.1 = h then removeConnection m h else e :: removeConnection m h := by
  by_cases he : e.1 = h <;> simp [removeConnection, List.filter_cons, he]

theorem getConnection_removeConnection_self (m : SslConnectionMap) (h : SslHandle) :
    getConnection (removeConnection m h) h = none := by
  induction m with
  | nil => rfl
  | cons e m ih =>
    rw [removeConnection_cons]
    split
    · exact ih
    · rename_i he
      rw [getConnection_cons, if_neg he]
      exact ih

theorem getConnection_removeConnection_other (m : SslConnectionMap) (h h' : SslHandle)
    (hne : h' ≠ h) : getConnection (removeConnection m h) h' = getConnection m h' := by
  induction m with
  | nil => rfl
  | cons e m ih =>
    rw [removeConnection_cons]
    split
    · rename_i he
      have he' : ¬ e.1 = h' := fun h1 => hne (h1.symm.trans he)
      rw [getConnection_cons, if_neg he']
      exact ih
    · rw [getConnection_cons, getConnection_cons, ih]

theorem removeConnection_of_absent (m : SslConnectionMap) (h : SslHandle)
    (habsent : getConnection m h = none) : removeConnection m h = m := by
  induction m with
  | nil => rfl
  | cons e m ih =>
    rw [getConnection_cons] at habsent
    rw [removeConnection_cons]
    split at habsent
    · exact absurd habsent (by simp)
    · rename_i he
      rw [if_neg he, ih habsent]

theorem getConnection_addConnection_other (m m' : SslConnectionMap) (h h' : SslHandle)
    (c : ConnectionRef) (hne : h' ≠ h) (hadd : addConnection m h c = some m') :
    getConnection m' h' = getConnection m h' := by
  unfold addConnection at hadd
  split at hadd
  · exact absurd hadd (by simp)
  · have hm : m' = (h, c) :: m := by simpa using hadd.symm
    subst hm
    rw [getConnection_cons, if_neg (Ne.symm hne)]

theorem addConnection_of_absent (m : SslConnectionMap) (h : SslHandle) (c : ConnectionRef)
    (habsent : getConnection m h = none) : addConnection m h c = some ((h, c) :: m) := by
  unfold addConnection
  rw [habsent]

/-- C8: for every registry content and every handle `h`, after
`removeConnection(h)` a `getConnection(h)` finds nothing, `removeConnection(h)`
on a registry that has no `h` leaves the registry as it was, and for every
other handle `h'` what `getConnection(h')` finds is the same after
`removeConnection(h)` and after an `addConnection(h, c)` as before it; on a
registry that has no `h`, `addConnection(h, c)` does register `c` for `h`. -/
theorem registry_removal_and_frame (m : SslConnectionMap) (h h' : SslHandle) (c : ConnectionRef)
    (hne : h' ≠ h) :
    getConnection (removeConnection m h) h = none ∧
    (getConnection m h = none → removeConnection m h = m) ∧
    getConnection (removeConnection m h) h' = getConnection m h' ∧
    (∀ m' : SslConnectionMap, addConnection m h c = some m' →
      getConnection m' h' = getConnection m h') ∧
    (getConnection m h = none →
      addConnection m h c = some ((h, c) :: m) ∧ getConnection ((h, c) :: m) h = some c) := by
  refine ⟨getConnection_removeConnection_self m h, removeConnection_of_absent m h,
    getConnection_removeConnection_other m h h' hne,
    fun m' hadd => getConnection_addConnection_other m m' h h' c hne hadd, fun habsent => ?_⟩
  refine ⟨addConnection_of_absent m h c habsent, ?_⟩
  rw [getConnection_cons, if_pos rfl]

theorem registry_removal_and_frame_witness :
    (1 : SslHandle) ≠ 2 ∧
    getConnection (removeConnection [(1, 10), (2, 20)] 2) 2 = none ∧
    getConnection (removeConnection [(1, 10), (2, 20)] 2) 1 = some 10 ∧
    getConnection [(1, 10), (2, 20)] 1 = some 10 :=
  have hw := registry_removal_and_frame [(1, 10), (2, 20)] 2 1 30 (by decide)
  ⟨by decide, hw.1, hw.2.2.1.trans (by decide), by decide⟩

/-! ## Theorems: concurrent callers of handshake -/

/-- The loop of `handshake` is its rounds one after the other. -/
theorem Connection.handshakeLoop_cons (c : Connection) (o : AttemptOutcome)
    (rest : List AttemptOutcome) (hc : c._phase = ConnectPhase.Handshake) :
    c.handshakeLoop (o :: rest) =
      match (c.handshakeAttempt o).1 with
      | some r => (r, (c.handshakeAttempt o).2)
      | none => (c.handshakeAttempt o).2.handshakeLoop rest := by
  obtain ⟨ph, err⟩ := c
  simp only at hc
  subst hc
  cases o <;> simp [Connection.handshakeLoop, Connection.handshakeAttempt]

/-- C7, as stated, fails when the engine does not complete the handshake: with
two callers and an engine whose attempts both fail, both callers invoke the
engine's step, both return the failure, and the phase is still `Handshake`. -/
theorem failing_engine_is_tried_by_every_caller :
    ((HandshakeRace.fresh 2 [AttemptOutcome.failed 5, AttemptOutcome.failed 5]).run
        [0, 1, 0, 0, 1, 1, 1, 1]).callers =
      [{ pc := CallerPc.done (EngineResult.handshakeFailure 5) ConnectPhase.Handshake,
         invoked := 1, waited := false },
       { pc := CallerPc.done (EngineResult.handshakeFailure 5) ConnectPhase.Handshake,
         invoked := 1, waited := true }] ∧
    ((HandshakeRace.fresh 2 [AttemptOutcome.failed 5, AttemptOutcome.failed 5]).run
        [0, 1, 0, 0, 1, 1, 1, 1]).shared.conn._phase = ConnectPhase.Handshake := by
  decide

theorem Caller.wake_holdsClaim (d : Caller) : d.wake.holdsClaim = d.holdsClaim := by
  obtain ⟨pc, n, b⟩ := d
  cases pc <;> rfl

theorem Caller.wake_invoked (d : Caller) : d.wake.invoked = d.invoked := by
  obtain ⟨pc, n, b⟩ := d
  cases pc <;> rfl

theorem Caller.wake_rank_le (d : Caller) : d.wake.rank ≤ d.rank := by
  obtain ⟨pc, n, b⟩ := d
  cases pc with
  | waiting s sig => cases sig <;> simp [Caller.wake, Caller.rank]
  | _ => simp [Caller.wake]

theorem HandshakeRace.step_of_none (w : HandshakeRace) (i : Nat) (h : w.callers[i]? = none) :
    w.step i = w := by
  simp [HandshakeRace.step, h]

theorem HandshakeRace.step_of_some (w : HandshakeRace) (i : Nat) (c : Caller)
    (h : w.callers[i]? = some c) :
    w.step i =
      { shared := (c.advance w.shared).1,
        callers :=
          (w.callers.map (if (c.advance w.shared).2.2 then Caller.wake else id)).set i
            (c.advance w.shared).2.1 } := by
  simp [HandshakeRace.step, h]

theorem getElem?_map_set (l : List Caller) (f : Caller → Caller) (i j : Nat) (c c' d' : Caller)
    (hc : l[i]? = some c) :
    ((l.map f).set i c')[j]? = some d' ↔
      (j = i ∧ d' = c') ∨ (j ≠ i ∧ ∃ d, l[j]? = some d ∧ d' = f d) := by
  have hi : i < l.length := (List.getElem?_eq_some.mp hc).1
  rw [List.getElem?_set, List.getElem?_map]
  by_cases hij : i = j
  · subst hij
    simp [hi, eq_comm]
  · have hji : j ≠ i := fun h => hij h.symm
    simp only [hij, if_false, hji, false_and, false_or, true_and, ne_eq, not_false_eq_true]
    cases l[j]? with
    | none => simp
    | some d => simp [eq_comm]

theorem set_self_of_getElem? (l : List Caller) :
    ∀ (i : Nat) (c : Caller), l[i]? = some c → (l.map id).set i c = l := by
  induction l with
  | nil => intro i c h; simp at h
  | cons a l ih =>
    intro i c h
    cases i with
    | zero => simp at h; simp [h]
    | succ i =>
      simp at h
      have := ih i c h
      simp only [List.map_id] at this
      simp [this]

theorem sum_rank_map_le (l : List Caller) (f : Caller → Caller)
    (hf : ∀ d, (f d).rank ≤ d.rank) :
    ((l.map f).map Caller.rank).sum ≤ (l.map Caller.rank).sum := by
  induction l with
  | nil => simp
  | cons a l ih =>
    have := hf a
    simp only [List.map_cons, List.sum_cons]
    omega

theorem sum_rank_map_set (l : List Caller) (f : Caller → Caller)
    (hf : ∀ d, (f d).rank ≤ d.rank) :
    ∀ (i : Nat) (c c' : Caller), l[i]? = some c →
      (((l.map f).set i c').map Caller.rank).sum + c.rank ≤
        (l.map Caller.rank).sum + c'.rank := by
  induction l with
  | nil => intro i c c' h; simp at h
  | cons a l ih =>
    intro i c c' h
    cases i with
    | zero =>
      simp at h
      subst h
      have := sum_rank_map_le l f hf
      simp only [List.map_cons, List.set_cons_zero, List.sum_cons]
      omega
    | succ i =>
      simp at h
      have h1 := ih i c c' h
      have h2 := hf a
      simp only [List.map_cons, List.set_cons_succ, List.sum_cons]
      omega

/-- The invariant is kept by a step of caller `i` that leaves the other callers
as they are up to `f`, under conditions on what the step does to the shared
state and to the caller itself. -/
theorem RaceInv.update (w : HandshakeRace) (inv : RaceInv w) (i : Nat) (c : Caller)
    (hc : w.callers[i]? = some c) (sh' : SharedConnection) (c' : Caller) (f : Caller → Caller)
    (hfh : ∀ d, (f d).holdsClaim = d.holdsClaim) (hfi : ∀ d, (f d).invoked = d.invoked)
    (hself : c'.ok sh')
    (hothers : ∀ (j : Nat) (d : Caller), j ≠ i → w.callers[j]? = some d → d.ok w.shared →
      (f d).ok sh')
    (hflag : sh'._handshakeFlag.obj._flag = true ↔
      (c'.holdsClaim = true ∨
        (w.shared._handshakeFlag.obj._flag = true ∧ c.holdsClaim = false)))
    (hclaim : c'.holdsClaim = true →
      c.holdsClaim = true ∨ w.shared._handshakeFlag.obj._flag = false)
    (hengine : sh'.conn._phase = ConnectPhase.Handshake → completes sh'.engine = true)
    (hconn : sh'.conn._phase = ConnectPhase.Connected →
      0 < c'.invoked ∨ (w.shared.conn._phase = ConnectPhase.Connected ∧ c'.invoked = c.invoked))
    (hinv : 0 < c'.invoked →
      0 < c.invoked ∨
        ∀ (k : Nat) (d : Caller), k ≠ i → w.callers[k]? = some d → d.invoked = 0)
    (hphase : sh'.conn._phase ≠ ConnectPhase.Shutdown) :
    RaceInv { shared := sh', callers := (w.callers.map f).set i c' } := by
  have key := fun (j : Nat) (d' : Caller) => getElem?_map_set w.callers f i j c c' d' hc
  have no_other_holder : c.holdsClaim = true ∨ w.shared._handshakeFlag.obj._flag = false →
      ∀ (k : Nat) (d : Caller), k ≠ i → w.callers[k]? = some d → d.holdsClaim = true → False := by
    intro h k d hk hd hh
    rcases h with h | h
    · exact hk (inv.holder_unique k i d c hd hc hh h)
    · have := inv.flag_iff.mpr ⟨k, d, hd, hh⟩
      rw [h] at this
      exact Bool.noConfusion this
  constructor
  · intro j d' hd'
    rcases (key j d').mp hd' with ⟨_, rfl⟩ | ⟨hj, d, hd, rfl⟩
    · exact hself
    · exact hothers j d hj hd (inv.ok j d hd)
  · intro j k dj dk hj hk hhj hhk
    rcases (key j dj).mp hj with ⟨hji, rfl⟩ | ⟨hji, ej, hej, rfl⟩ <;>
      rcases (key k dk).mp hk with ⟨hki, rfl⟩ | ⟨hki, ek, hek, rfl⟩
    · rw [hji, hki]
    · rw [hfh] at hhk
      exact (no_other_holder (hclaim hhj) k ek hki hek hhk).elim
    · rw [hfh] at hhj
      exact (no_other_holder (hclaim hhk) j ej hji hej hhj).elim
    · rw [hfh] at hhj hhk
      exact inv.holder_unique j k ej ek hej hek hhj hhk
  · show sh'._handshakeFlag.obj._flag = true ↔ _
    rw [hflag]
    constructor
    · rintro (h | ⟨h1, h2⟩)
      · exact ⟨i, c', (key i c').mpr (Or.inl ⟨rfl, rfl⟩), h⟩
      · obtain ⟨j, d, hd, hh⟩ := inv.flag_iff.mp h1
        have hji : j ≠ i := by
          rintro rfl
          rw [hc] at hd
          cases hd
          rw [h2] at hh
          exact Bool.noConfusion hh
        exact ⟨j, f d, (key j (f d)).mpr (Or.inr ⟨hji, d, hd, rfl⟩), by rw [hfh]; exact hh⟩
    · rintro ⟨j, d', hd', hh⟩
      rcases (key j d').mp hd' with ⟨_, rfl⟩ | ⟨hji, d, hd, rfl⟩
      · exact Or.inl hh
      · rw [hfh] at hh
        refine Or.inr ⟨inv.flag_iff.mpr ⟨j, d, hd, hh⟩, ?_⟩
        cases hch : c.holdsClaim with
        | false => rfl
        | true => exact (hji (inv.holder_unique j i d c hd hc hh hch)).elim
  · exact hengine
  · intro hph
    show ∃ (j : Nat) (d : Caller), ((w.callers.map f).set i c')[j]? = some d ∧ 0 < d.invoked
    rcases hconn hph with h | ⟨h1, h2⟩
    · exact ⟨i, c', (key i c').mpr (Or.inl ⟨rfl, rfl⟩), h⟩
    · obtain ⟨j, d, hd, hpos⟩ := inv.invoked_exists h1
      by_cases hji : j = i
      · subst hji
        rw [hc] at hd
        cases hd
        exact ⟨j, c', (key j c').mpr (Or.inl ⟨rfl, rfl⟩), by rw [h2]; exact hpos⟩
      · exact ⟨j, f d, (key j (f d)).mpr (Or.inr ⟨hji, d, hd, rfl⟩), by rw [hfi]; exact hpos⟩
  · intro j k dj dk hj hk hpj hpk
    have no_other : 0 < c'.invoked →
        ∀ (k : Nat) (d : Caller), k ≠ i → w.callers[k]? = some d → 0 < d.invoked → False := by
      intro hpos k d hk hd hp
      rcases hinv hpos with h | h
      · exact hk (inv.invoked_unique k i d c hd hc hp h)
      · have := h k d hk hd
        omega
    rcases (key j dj).mp hj with ⟨hji, rfl⟩ | ⟨hji, ej, hej, rfl⟩ <;>
      rcases (key k dk).mp hk with ⟨hki, rfl⟩ | ⟨hki, ek, hek, rfl⟩
    · rw [hji, hki]
    · rw [hfi] at hpk
      exact (no_other hpj k ek hki hek hpk).elim
    · rw [hfi] at hpj
      exact (no_other hpk j ej hji hej hpj).elim
    · rw [hfi] at hpj hpk
      exact inv.invoked_unique j k ej ek hej hek hpj hpk
  · exact hphase

theorem Caller.ok_of_eq (sh sh' : SharedConnection) (d : Caller)
    (hph : sh'.conn._phase = sh.conn._phase)
    (hfl : sh._handshakeFlag.obj._flag = true → sh'._handshakeFlag.obj._flag = true)
    (hd : d.ok sh) : d.ok sh' := by
  obtain ⟨pc, n, b⟩ := d
  cases pc with
  | waiting s sig =>
    simp only [Caller.ok] at hd ⊢
    rw [hph]
    exact ⟨hd.1, hd.2.1, hd.2.2.1, fun h => hfl (hd.2.2.2 h)⟩
  | idle => exact hd
  | running s => exact hd
  | returning s r => simp only [Caller.ok] at hd ⊢; rw [hph]; exact hd
  | done r seen => simp only [Caller.ok] at hd ⊢; rw [hph]; exact hd

theorem construct_ownHandshake (t : TracedFlag) :
    (HandshakeSentinel.construct t).1.ownHandshake = !t.obj._flag := by
  obtain ⟨⟨b⟩, h⟩ := t
  cases b <;> rfl

theorem construct_flag (t : TracedFlag) :
    (HandshakeSentinel.construct t).2.obj._flag = true := by
  obtain ⟨⟨b⟩, h⟩ := t
  cases b <;> rfl

theorem Caller.ok_of_completed (sh sh' : SharedConnection) (d : Caller)
    (hph : sh.conn._phase = ConnectPhase.Handshake)
    (hph' : sh'.conn._phase = ConnectPhase.Connected)
    (hfl : sh'._handshakeFlag.obj._flag = sh._handshakeFlag.obj._flag)
    (hd : d.ok sh) : d.ok sh' := by
  obtain ⟨pc, n, b⟩ := d
  cases pc with
  | waiting s sig =>
    simp only [Caller.ok] at hd ⊢
    rw [hfl]
    exact ⟨hd.1, hd.2.1, fun _ => hph', hd.2.2.2⟩
  | idle => exact hd
  | running s => exact hd
  | returning s r =>
    simp only [Caller.ok, hph] at hd
    exact absurd hd.2.1 (by decide)
  | done r seen =>
    simp only [Caller.ok, hph] at hd
    exact absurd hd.2.2.1 (by decide)

theorem Caller.ok_wake (sh sh' : SharedConnection) (d : Caller)
    (hph' : sh'.conn._phase = ConnectPhase.Connected)
    (hph : sh.conn._phase = ConnectPhase.Connected)
    (hd : d.ok sh) : d.wake.ok sh' := by
  obtain ⟨pc, n, b⟩ := d
  cases pc with
  | waiting s sig =>
    simp only [Caller.ok, Caller.wake] at hd ⊢
    exact ⟨hd.1, hd.2.1, fun _ => hph', fun h => Bool.noConfusion h⟩
  | idle => exact hd
  | running s => exact hd
  | returning s r =>
    simp only [Caller.ok, Caller.wake, hph, hph'] at hd ⊢
    exact hd
  | done r seen =>
    simp only [Caller.ok, Caller.wake, hph, hph'] at hd ⊢
    exact hd

/-- While the phase is `Handshake`, no caller other than the one that holds the
claim has invoked the engine. -/
theorem RaceInv.others_not_invoked (w : HandshakeRace) (inv : RaceInv w) (i : Nat) (c : Caller)
    (hc : w.callers[i]? = some c) (hholds : c.holdsClaim = true)
    (hph : w.shared.conn._phase = ConnectPhase.Handshake) :
    ∀ (k : Nat) (d : Caller), k ≠ i → w.callers[k]? = some d → d.invoked = 0 := by
  intro k d hk hd
  have hok := inv.ok k d hd
  obtain ⟨pc, n, b⟩ := d
  cases pc with
  | idle => exact hok.1
  | waiting s sig => exact hok.2.1
  | running s =>
    exact (hk (inv.holder_unique k i _ c hd hc hok.1 hholds)).elim
  | returning s r =>
    simp only [Caller.ok, hph] at hok
    exact absurd hok.2.1 (by decide)
  | done r seen =>
    simp only [Caller.ok, hph] at hok
    exact absurd hok.2.2.1 (by decide)

theorem HandshakeRace.unchanged (w : HandshakeRace) (i : Nat) (c : Caller)
    (hc : w.callers[i]? = some c) :
    ({ shared := w.shared, callers := (w.callers.map id).set i c } : HandshakeRace) = w := by
  obtain ⟨sh, l⟩ := w
  simp only at hc
  rw [set_self_of_getElem? l i c hc]

theorem RaceInv.step_preserved (w : HandshakeRace) (inv : RaceInv w) (i : Nat) : RaceInv (w.step i) := by
  cases hc : w.callers[i]? with
  | none => rw [HandshakeRace.step_of_none w i hc]; exact inv
  | some c =>
    have hok := inv.ok i c hc
    rw [HandshakeRace.step_of_some w i c hc]
    obtain ⟨pc, n, wt⟩ := c
    cases pc with
    | idle =>
      simp only [Caller.ok] at hok
      obtain ⟨hn, hwt⟩ := hok
      subst hn hwt
      cases hb : w.shared._handshakeFlag.obj._flag with
      | false =>
        have hown : (HandshakeSentinel.construct w.shared._handshakeFlag).1.ownHandshake = true := by
          rw [construct_ownHandshake, hb]; rfl
        simp only [Caller.advance, hown, if_true, Bool.false_eq_true, if_false]
        refine RaceInv.update w inv i _ hc _ _ id (fun _ => rfl) (fun _ => rfl) ?_ ?_ ?_ ?_ ?_ ?_ ?_ ?_
        · exact ⟨hown, rfl⟩
        · intro j d _ _ hd
          exact Caller.ok_of_eq w.shared _ d rfl (fun _ => construct_flag _) hd
        · simp [Caller.holdsClaim, hown, construct_flag]
        · intro _; exact Or.inr hb
        · exact inv.engine_completes
        · intro h; exact Or.inr ⟨h, rfl⟩
        · intro h; simp at h
        · exact inv.not_shutdown
      | true =>
        have hown : (HandshakeSentinel.construct w.shared._handshakeFlag).1.ownHandshake = false := by
          rw [construct_ownHandshake, hb]; rfl
        simp only [Caller.advance, hown, if_true, Bool.false_eq_true, if_false]
        refine RaceInv.update w inv i _ hc _ _ id (fun _ => rfl) (fun _ => rfl) ?_ ?_ ?_ ?_ ?_ ?_ ?_ ?_
        · exact ⟨hown, rfl, fun h => Bool.noConfusion h, fun _ => construct_flag _⟩
        · intro j d _ _ hd
          exact Caller.ok_of_eq w.shared _ d rfl (fun _ => construct_flag _) hd
        · simp [Caller.holdsClaim, hown, construct_flag, hb]
        · intro h; simp [Caller.holdsClaim, hown] at h
        · exact inv.engine_completes
        · intro h; exact Or.inr ⟨h, rfl⟩
        · intro h; simp at h
        · exact inv.not_shutdown
    | waiting s sig =>
      simp only [Caller.ok] at hok
      obtain ⟨hs, hn, hsig, hfl⟩ := hok
      subst hn
      cases sig with
      | false =>
        simp only [Caller.advance, Bool.false_eq_true, if_false]
        rw [HandshakeRace.unchanged w i _ hc]
        exact inv
      | true =>
        have hph := hsig rfl
        simp only [Caller.advance, hph, Bool.false_eq_true, if_false]
        refine RaceInv.update w inv i _ hc _ _ id (fun _ => rfl) (fun _ => rfl) ?_ ?_ ?_ ?_ ?_ ?_ ?_ ?_
        · exact ⟨rfl, hph, fun _ => rfl⟩
        · intro j d _ _ hd; exact hd
        · simp [Caller.holdsClaim, hs]
        · intro h; simp [Caller.holdsClaim, hs] at h
        · exact inv.engine_completes
        · intro h; exact Or.inr ⟨h, rfl⟩
        · intro h; simp at h
        · exact inv.not_shutdown
    | running s =>
      simp only [Caller.ok] at hok
      obtain ⟨hs, hwt⟩ := hok
      subst hwt
      have hholds : Caller.holdsClaim { pc := CallerPc.running s, invoked := n, waited := false }
          = true := hs
      have hflag : w.shared._handshakeFlag.obj._flag = true :=
        inv.flag_iff.mpr ⟨i, _, hc, hholds⟩
      cases hph : w.shared.conn._phase with
      | Shutdown => exact absurd hph inv.not_shutdown
      | Connected =>
        simp only [Caller.advance, hph, Bool.false_eq_true, if_false]
        refine RaceInv.update w inv i _ hc _ _ id (fun _ => rfl) (fun _ => rfl) ?_ ?_ ?_ ?_ ?_ ?_ ?_ ?_
        · exact ⟨rfl, hph, fun h => Bool.noConfusion h⟩
        · intro j d _ _ hd; exact hd
        · simp [Caller.holdsClaim, hs, hflag]
        · intro _; exact Or.inl hholds
        · exact inv.engine_completes
        · intro h; exact Or.inr ⟨h, rfl⟩
        · intro h; exact Or.inl h
        · exact inv.not_shutdown
      | Handshake =>
        have hcomp := inv.engine_completes hph
        have hothers := RaceInv.others_not_invoked w inv i _ hc hholds hph
        cases heng : w.shared.engine with
        | nil => rw [heng] at hcomp; exact absurd hcomp (by decide)
        | cons o rest =>
          rw [heng] at hcomp
          cases o with
          | completed =>
            simp only [Caller.advance, hph, heng, Connection.handshakeAttempt, Bool.false_eq_true,
              if_false]
            refine RaceInv.update w inv i _ hc _ _ id (fun _ => rfl) (fun _ => rfl)
              ?_ ?_ ?_ ?_ ?_ ?_ ?_ ?_
            · exact ⟨rfl, rfl, fun h => Bool.noConfusion h⟩
            · intro j d _ _ hd
              exact Caller.ok_of_completed w.shared _ d hph rfl rfl hd
            · simp [Caller.holdsClaim, hs, hflag]
            · intro _; exact Or.inl hholds
            · intro h; cases h
            · intro _; exact Or.inl (Nat.succ_pos n)
            · intro _; exact Or.inr hothers
            · exact fun h => by cases h
          | needsMoreRead =>
            simp only [Caller.advance, hph, heng, Connection.handshakeAttempt, Bool.false_eq_true,
              if_false]
            refine RaceInv.update w inv i _ hc _ _ id (fun _ => rfl) (fun _ => rfl)
              ?_ ?_ ?_ ?_ ?_ ?_ ?_ ?_
            · exact ⟨hs, rfl⟩
            · intro j d _ _ hd
              exact Caller.ok_of_eq w.shared _ d rfl (fun h => h) hd
            · simp [Caller.holdsClaim, hs, hflag]
            · intro _; exact Or.inl hholds
            · intro _; simpa [completes] using hcomp
            · intro h; exact Or.inr ⟨h, by rw [hph] at h; cases h⟩
            · intro _; exact Or.inr hothers
            · exact inv.not_shutdown
          | needsMoreWrite =>
            simp only [Caller.advance, hph, heng, Connection.handshakeAttempt, Bool.false_eq_true,
              if_false]
            refine RaceInv.update w inv i _ hc _ _ id (fun _ => rfl) (fun _ => rfl)
              ?_ ?_ ?_ ?_ ?_ ?_ ?_ ?_
            · exact ⟨hs, rfl⟩
            · intro j d _ _ hd
              exact Caller.ok_of_eq w.shared _ d rfl (fun h => h) hd
            · simp [Caller.holdsClaim, hs, hflag]
            · intro _; exact Or.inl hholds
            · intro _; simpa [completes] using hcomp
            · intro h; exact Or.inr ⟨h, by rw [hph] at h; cases h⟩
            · intro _; exact Or.inr hothers
            · exact inv.not_shutdown
          | timedOut => exact absurd hcomp (by simp [completes])
          | failed code => exact absurd hcomp (by simp [completes])
    | returning s r =>
      simp only [Caller.ok] at hok
      obtain ⟨hr, hph, hwn⟩ := hok
      subst hr
      obtain ⟨own⟩ := s
      cases own with
      | true =>
        simp only [Caller.advance, HandshakeSentinel.ownHandshake, if_true]
        refine RaceInv.update w inv i _ hc _ _ Caller.wake Caller.wake_holdsClaim
          Caller.wake_invoked ?_ ?_ ?_ ?_ ?_ ?_ ?_ ?_
        · exact ⟨rfl, hph, hph, hwn⟩
        · intro j d _ _ hd
          exact Caller.ok_wake w.shared _ d hph hph hd
        · simp [Caller.holdsClaim, HandshakeSentinel.ownHandshake, HandshakeSentinel.destroy,
            TracedFlag.unset, SafeFlag.unset]
        · intro h; simp [Caller.holdsClaim] at h
        · intro h; rw [hph] at h; cases h
        · intro h; exact Or.inr ⟨h, rfl⟩
        · intro h; exact Or.inl h
        · exact inv.not_shutdown
      | false =>
        simp only [Caller.advance, HandshakeSentinel.ownHandshake, Bool.false_eq_true, if_false]
        refine RaceInv.update w inv i _ hc _ _ id (fun _ => rfl) (fun _ => rfl)
          ?_ ?_ ?_ ?_ ?_ ?_ ?_ ?_
        · exact ⟨rfl, hph, hph, hwn⟩
        · intro j d _ _ hd
          exact Caller.ok_of_eq w.shared _ d rfl (fun h => h) hd
        · simp [Caller.holdsClaim, HandshakeSentinel.ownHandshake, HandshakeSentinel.destroy]
        · intro h; simp [Caller.holdsClaim] at h
        · intro h; rw [hph] at h; cases h
        · intro h; exact Or.inr ⟨h, rfl⟩
        · intro h; exact Or.inl h
        · exact inv.not_shutdown
    | done r seen =>
      simp only [Caller.advance, Bool.false_eq_true, if_false]
      rw [HandshakeRace.unchanged w i _ hc]
      exact inv

theorem RaceInv.of_fresh (n : Nat) (engine : List AttemptOutcome) (hengine : completes engine = true) :
    RaceInv (HandshakeRace.fresh n engine) := by
  have key : ∀ (j : Nat) (d : Caller), (HandshakeRace.fresh n engine).callers[j]? = some d →
      d = { pc := CallerPc.idle, invoked := 0, waited := false } := by
    intro j d hd
    simp only [HandshakeRace.fresh, List.getElem?_replicate] at hd
    split at hd
    · exact (Option.some.inj hd).symm
    · cases hd
  constructor
  · intro j d hd
    rw [key j d hd]
    exact ⟨rfl, rfl⟩
  · intro j k dj dk hj _ hhj _
    rw [key j dj hj] at hhj
    cases hhj
  · constructor
    · intro h; cases h
    · rintro ⟨j, d, hd, hh⟩
      rw [key j d hd] at hh
      cases hh
  · intro _; exact hengine
  · intro h; cases h
  · intro j k dj dk hj _ hpj _
    rw [key j dj hj] at hpj
    cases hpj
  · intro h; cases h

theorem RaceInv.run_preserved (schedule : List Nat) :
    ∀ w : HandshakeRace, RaceInv w → RaceInv (w.run schedule) := by
  induction schedule with
  | nil => intro w inv; exact inv
  | cons i schedule ih => intro w inv; exact ih (w.step i) (RaceInv.step_preserved w inv i)

theorem rank_signal_le (b : Bool) (d : Caller) :
    ((if b = true then Caller.wake else id) d).rank ≤ d.rank := by
  cases b
  · exact Nat.le_refl _
  · exact Caller.wake_rank_le d

theorem HandshakeRace.remaining_step (w : HandshakeRace) (i : Nat) (c : Caller)
    (hc : w.callers[i]? = some c) :
    (w.step i).remaining + c.rank ≤
      (c.advance w.shared).1.engine.length + (w.callers.map Caller.rank).sum +
        (c.advance w.shared).2.1.rank := by
  rw [HandshakeRace.step_of_some w i c hc]
  have := sum_rank_map_set w.callers
    (if (c.advance w.shared).2.2 = true then Caller.wake else id)
    (rank_signal_le _) i c (c.advance w.shared).2.1 hc
  simp only [HandshakeRace.remaining]
  omega

theorem Caller.advance_decreases (sh : SharedConnection) (c : Caller) (hok : c.ok sh)
    (hnd : c.isDone = false) (hr : c.rank ≠ 4) :
    (c.advance sh).1.engine.length + (c.advance sh).2.1.rank < sh.engine.length + c.rank := by
  obtain ⟨pc, n, wt⟩ := c
  cases pc with
  | idle =>
    cases hown : (HandshakeSentinel.construct sh._handshakeFlag).1.ownHandshake <;>
      simp [Caller.advance, hown, Caller.rank]
  | waiting s sig =>
    cases sig with
    | false => exact absurd rfl hr
    | true =>
      have hph : sh.conn._phase = ConnectPhase.Connected := hok.2.2.1 rfl
      simp [Caller.advance, hph, Caller.rank]
  | running s =>
    cases hph : sh.conn._phase with
    | Shutdown => simp [Caller.advance, hph, Caller.rank]
    | Connected => simp [Caller.advance, hph, Caller.rank]
    | Handshake =>
      cases heng : sh.engine with
      | nil => simp [Caller.advance, hph, heng, Caller.rank]
      | cons o rest =>
        cases o <;> simp [Caller.advance, hph, heng, Caller.rank, Connection.handshakeAttempt]
  | returning s r => simp [Caller.advance, Caller.rank]
  | done r seen => simp [Caller.isDone] at hnd

theorem HandshakeRace.step_of_blocked (w : HandshakeRace) (i : Nat) (c : Caller)
    (hc : w.callers[i]? = some c) (hb : c.isDone = true ∨ c.rank = 4) : w.step i = w := by
  rw [HandshakeRace.step_of_some w i c hc]
  obtain ⟨pc, n, wt⟩ := c
  cases pc with
  | waiting s sig =>
    cases sig with
    | false =>
      simp only [Caller.advance, Bool.false_eq_true, if_false]
      exact HandshakeRace.unchanged w i _ hc
    | true => simp [Caller.isDone, Caller.rank] at hb
  | done r seen =>
    simp only [Caller.advance, Bool.false_eq_true, if_false]
    exact HandshakeRace.unchanged w i _ hc
  | idle => simp [Caller.isDone, Caller.rank] at hb
  | running s => simp [Caller.isDone, Caller.rank] at hb
  | returning s r => simp [Caller.isDone, Caller.rank] at hb

theorem RaceInv.step_decreases (w : HandshakeRace) (inv : RaceInv w) (i : Nat) (c : Caller)
    (hc : w.callers[i]? = some c) (hnd : c.isDone = false) (hr : c.rank ≠ 4) :
    (w.step i).remaining < w.remaining := by
  have h1 := HandshakeRace.remaining_step w i c hc
  have h2 := Caller.advance_decreases w.shared c (inv.ok i c hc) hnd hr
  simp only [HandshakeRace.remaining] at h1 ⊢
  omega

theorem RaceInv.step_same_or_less (w : HandshakeRace) (inv : RaceInv w) (i : Nat) :
    w.step i = w ∨ (w.step i).remaining < w.remaining := by
  cases hc : w.callers[i]? with
  | none => exact Or.inl (HandshakeRace.step_of_none w i hc)
  | some c =>
    by_cases hb : c.isDone = true ∨ c.rank = 4
    · exact Or.inl (HandshakeRace.step_of_blocked w i c hc hb)
    · refine Or.inr (RaceInv.step_decreases w inv i c hc ?_ ?_)
      · cases h : c.isDone with
        | false => rfl
        | true => exact absurd (Or.inl h) hb
      · exact fun h => hb (Or.inr h)

/-- No lost wake-up: while some caller has not returned, some caller can make a
step that brings the race nearer to its end. -/
theorem RaceInv.progress (w : HandshakeRace) (inv : RaceInv w)
    (h : ∃ d ∈ w.callers, d.isDone = false) :
    ∃ i, (w.step i).remaining < w.remaining := by
  obtain ⟨d, hmem, hnd⟩ := h
  obtain ⟨j, hj⟩ := List.mem_iff_getElem?.mp hmem
  by_cases hr : d.rank = 4
  · have hok := inv.ok j d hj
    obtain ⟨pc, n, wt⟩ := d
    cases pc with
    | waiting s sig =>
      cases sig with
      | true => simp [Caller.rank] at hr
      | false =>
        have hflag : w.shared._handshakeFlag.obj._flag = true := hok.2.2.2 rfl
        obtain ⟨k, e, hk, hh⟩ := inv.flag_iff.mp hflag
        have hoke := inv.ok k e hk
        refine ⟨k, RaceInv.step_decreases w inv k e hk ?_ ?_⟩
        · obtain ⟨pce, ne, wte⟩ := e
          cases pce <;> first | rfl | (simp [Caller.holdsClaim] at hh)
        · obtain ⟨pce, ne, wte⟩ := e
          cases pce with
          | waiting s' sig' =>
            have : s'.ownHandshake = false := hoke.1
            simp [Caller.holdsClaim, this] at hh
          | idle => simp [Caller.rank]
          | running s' => simp [Caller.rank]
          | returning s' r' => simp [Caller.rank]
          | done r' seen' => simp [Caller.rank]
    | idle => simp [Caller.rank] at hr
    | running s => simp [Caller.rank] at hr
    | returning s r => simp [Caller.rank] at hr
    | done r seen => simp [Caller.rank] at hr
  · exact ⟨j, RaceInv.step_decreases w inv j d hj hnd hr⟩

theorem RaceInv.can_finish (m : Nat) :
    ∀ w : HandshakeRace, RaceInv w → w.remaining ≤ m →
      ∃ rest : List Nat, ∀ d ∈ (w.run rest).callers, d.isDone = true := by
  induction m with
  | zero =>
    intro w inv hm
    refine ⟨[], fun d hd => ?_⟩
    cases hdone : d.isDone with
    | true => rfl
    | false =>
      obtain ⟨i, hi⟩ := RaceInv.progress w inv ⟨d, hd, hdone⟩
      omega
  | succ m ih =>
    intro w inv hm
    by_cases hall : ∀ d ∈ w.callers, d.isDone = true
    · exact ⟨[], hall⟩
    · have hex : ∃ d ∈ w.callers, d.isDone = false := by
        by_contra hne
        apply hall
        intro d hd
        cases hdone : d.isDone with
        | true => rfl
        | false => exact absurd ⟨d, hd, hdone⟩ hne
      obtain ⟨i, hi⟩ := RaceInv.progress w inv hex
      obtain ⟨rest, hrest⟩ := ih (w.step i) (RaceInv.step_preserved w inv i) (by omega)
      exact ⟨i :: rest, hrest⟩

theorem RaceInv.done_ok (w : HandshakeRace) (inv : RaceInv w) (d : Caller) (hd : d ∈ w.callers)
    (hdone : d.isDone = true) :
    d.pc = CallerPc.done EngineResult.success ConnectPhase.Connected ∧
      w.shared.conn._phase = ConnectPhase.Connected := by
  obtain ⟨j, hj⟩ := List.mem_iff_getElem?.mp hd
  have hok := inv.ok j d hj
  obtain ⟨pc, n, wt⟩ := d
  cases pc with
  | done r seen =>
    simp only [Caller.ok] at hok
    obtain ⟨h1, h2, h3, _⟩ := hok
    subst h1 h2
    exact ⟨rfl, h3⟩
  | idle => simp [Caller.isDone] at hdone
  | waiting s sig => simp [Caller.isDone] at hdone
  | running s => simp [Caller.isDone] at hdone
  | returning s r => simp [Caller.isDone] at hdone

theorem RaceInv.waited_not_invoked (w : HandshakeRace) (inv : RaceInv w) (d : Caller)
    (hd : d ∈ w.callers) (hw : d.waited = true) : d.invoked = 0 := by
  obtain ⟨j, hj⟩ := List.mem_iff_getElem?.mp hd
  have hok := inv.ok j d hj
  obtain ⟨pc, n, wt⟩ := d
  simp only at hw
  subst hw
  cases pc with
  | idle => exact Bool.noConfusion hok.2
  | waiting s sig => exact hok.2.1
  | running s => exact Bool.noConfusion hok.2
  | returning s r => exact hok.2.2 rfl
  | done r seen => exact hok.2.2.2 rfl

/-- C7, amended: on a fresh connection whose engine completes the handshake,
for every number of callers of `handshake()` and every interleaving of their
atomic steps: at most one caller ever invokes the engine's handshake step, and
once any caller has returned exactly one has invoked it; every caller that has
returned has returned success and seen phase `Connected`, which the connection
is in; a caller that found the claim held has not itself invoked the step;
every step either changes nothing or brings the race nearer to its end, while
some caller has not returned some step does so (no lost wake-up), and the
callers can all be brought to return, each with success and `Connected`. -/
theorem concurrent_handshake_negotiates_once (n : Nat) (engine : List AttemptOutcome)
    (schedule : List Nat) (hengine : completes engine = true) :
    (∀ (j k : Nat) (dj dk : Caller),
      ((HandshakeRace.fresh n engine).run schedule).callers[j]? = some dj →
      ((HandshakeRace.fresh n engine).run schedule).callers[k]? = some dk →
      0 < dj.invoked → 0 < dk.invoked → j = k) ∧
    ((∃ d ∈ ((HandshakeRace.fresh n engine).run schedule).callers, d.isDone = true) →
      ∃ e ∈ ((HandshakeRace.fresh n engine).run schedule).callers, 0 < e.invoked) ∧
    (∀ d ∈ ((HandshakeRace.fresh n engine).run schedule).callers, d.isDone = true →
      d.pc = CallerPc.done EngineResult.success ConnectPhase.Connected ∧
      ((HandshakeRace.fresh n engine).run schedule).shared.conn._phase
        = ConnectPhase.Connected) ∧
    (∀ d ∈ ((HandshakeRace.fresh n engine).run schedule).callers,
      d.waited = true → d.invoked = 0) ∧
    (∀ i : Nat,
      ((HandshakeRace.fresh n engine).run schedule).step i
          = (HandshakeRace.fresh n engine).run schedule ∨
        (((HandshakeRace.fresh n engine).run schedule).step i).remaining
          < ((HandshakeRace.fresh n engine).run schedule).remaining) ∧
    ((∃ d ∈ ((HandshakeRace.fresh n engine).run schedule).callers, d.isDone = false) →
      ∃ i : Nat, (((HandshakeRace.fresh n engine).run schedule).step i).remaining
        < ((HandshakeRace.fresh n engine).run schedule).remaining) ∧
    (∃ rest : List Nat,
      ∀ d ∈ (((HandshakeRace.fresh n engine).run schedule).run rest).callers,
        d.pc = CallerPc.done EngineResult.success ConnectPhase.Connected) := by
  have inv := RaceInv.run_preserved schedule _ (RaceInv.of_fresh n engine hengine)
  generalize (HandshakeRace.fresh n engine).run schedule = w at inv
  refine ⟨inv.invoked_unique, ?_, fun d hd hdone => RaceInv.done_ok w inv d hd hdone,
    fun d hd hw => RaceInv.waited_not_invoked w inv d hd hw,
    fun i => RaceInv.step_same_or_less w inv i, RaceInv.progress w inv, ?_⟩
  · rintro ⟨d, hd, hdone⟩
    obtain ⟨j, e, he, hpos⟩ := inv.invoked_exists (RaceInv.done_ok w inv d hd hdone).2
    exact ⟨e, List.mem_iff_getElem?.mpr ⟨j, he⟩, hpos⟩
  · obtain ⟨rest, hrest⟩ := RaceInv.can_finish w.remaining w inv (Nat.le_refl _)
    exact ⟨rest, fun d hd =>
      (RaceInv.done_ok (w.run rest) (RaceInv.run_preserved rest w inv) d hd (hrest d hd)).1⟩

theorem concurrent_handshake_negotiates_once_witness :
    completes [AttemptOutcome.needsMoreRead, AttemptOutcome.completed] = true ∧
    ((HandshakeRace.fresh 2 [AttemptOutcome.needsMoreRead, AttemptOutcome.completed]).run
        [0, 1, 0, 1, 0, 0, 1, 1]).callers =
      [{ pc := CallerPc.done EngineResult.success ConnectPhase.Connected,
         invoked := 2, waited := false },
       { pc := CallerPc.done EngineResult.success ConnectPhase.Connected,
         invoked := 0, waited := true }] ∧
    (∀ d ∈ ((HandshakeRace.fresh 2
          [AttemptOutcome.needsMoreRead, AttemptOutcome.completed]).run
        [0, 1, 0, 1, 0, 0, 1, 1]).callers, d.waited = true → d.invoked = 0) :=
  ⟨by decide, by decide,
    (concurrent_handshake_negotiates_once 2
      [AttemptOutcome.needsMoreRead, AttemptOutcome.completed]
      [0, 1, 0, 1, 0, 0, 1, 1] (by decide)).2.2.2.1⟩

end IceSSL.OpenSSL
